import Mathlib

/-!
Verification of the vimeo-scraper movie pipeline
================================================

Shallow embedding of the decision logic of the vimeo-scraper repository:
the candidate collector (`vimeo_old_movies_finder.py`, `comprehensive_movie_finder.py`),
the keyword pre-filter, the three AI classification sub-stages
(`ai_powered_movie_verifier.py`), the TMDb cross-reference verifier
(`tmdb_verifier.py`), the scoring/ranking stage and the export stage.

External services (Vimeo search, Claude classification, TMDb lookups) are
modelled as explicit oracle inputs; all numeric computation is over `ℚ`
(the Python code uses floats, but every claim-relevant computation is exact
at the rationals involved).
-/

namespace VimeoScraper

/-! ## difflib.SequenceMatcher

`tmdb_verifier.calculate_title_similarity` delegates to Python's
`difflib.SequenceMatcher(None, t1, t2).ratio()`.  The model below follows
CPython's `difflib.py` with `isjunk = None` and the default `autojunk = True`:

* `b2j` maps a character to the ascending list of its indices in `b`,
  dropping "popular" characters (autojunk: when `len(b) >= 200`, characters
  occurring more than `len(b) // 100 + 1` times are purged from `b2j`);
* `find_longest_match` runs a row-by-row dynamic program over `j2len`
  dictionaries, then extends the best block on both ends (the junk-extension
  loops of CPython never fire because `isjunk = None` makes `bjunk` empty);
* `ratio` is `2 * M / (len(a) + len(b))` where `M` is the total size of the
  matching blocks produced by the recursive `get_matching_blocks` split
  (sorting/merging adjacent blocks does not change the total size `M`),
  and `1.0` when both strings are empty.
-/

/-- Ascending list of indices `j` with `b[j] = c`. -/
def indicesOf (c : Char) (b : List Char) : List Nat :=
  (List.range b.length).filter (fun j => b.getD j default = c)

/-- autojunk: `c` is "popular" in `b` when `len(b) >= 200` and `c` occurs more
than `len(b) // 100 + 1` times. -/
def isPopular (b : List Char) (c : Char) : Bool :=
  200 ≤ b.length && b.length / 100 + 1 < (indicesOf c b).length

/-- CPython's `b2j.get(a[i], [])` after the autojunk purge. -/
def b2j (b : List Char) (c : Char) : List Nat :=
  if isPopular b c then [] else indicesOf c b

/-- (Proof device, not part of the source.)  Length of the maximal suffix
run of non-popular characters of `a` ending at position `r`: the value the
`j2len` dynamic program attains on the diagonal when matching `a` against
itself. -/
def diagRun (a : List Char) : Nat → Nat
  | 0 => if isPopular a (a.getD 0 default) then 0 else 1
  | r + 1 => if isPopular a (a.getD (r + 1) default) then 0 else diagRun a r + 1

/-- Inner loop of `find_longest_match` over one row `i`: iterate over the
ascending match positions `j` of `a[i]` in `b`, skipping `j < blo` and
stopping at the first `j ≥ bhi`; `old` is the previous row's `j2len`
dictionary (`newj2len[j] = j2len.get(j-1, 0) + 1`, the `j = 0` case reading
Python's absent key `-1`), and the best block is updated whenever a strictly
longer run appears. -/
def rowGo (blo bhi i : Nat) (old : Nat → Nat) :
    List Nat → (Nat → Nat) → Nat × Nat × Nat → ((Nat → Nat) × (Nat × Nat × Nat))
  | [], newj, best => (newj, best)
  | j :: js, newj, best =>
    if j < blo then rowGo blo bhi i old js newj best
    else if bhi ≤ j then (newj, best)
    else
      let k := (if j = 0 then 0 else old (j - 1)) + 1
      let newj' := fun x => if x = j then k else newj x
      let best' := if best.2.2 < k then (i + 1 - k, j + 1 - k, k) else best
      rowGo blo bhi i old js newj' best'

/-- Outer loop of `find_longest_match` over the rows `alo, …, ahi-1`
(threading the `j2len` dictionary and the current best block). -/
def mainGo (a b : List Char) (blo bhi : Nat) :
    List Nat → (Nat → Nat) → Nat × Nat × Nat → Nat × Nat × Nat
  | [], _, best => best
  | i :: is, old, best =>
    let p := rowGo blo bhi i old (b2j b (a.getD i default)) (fun _ => 0) best
    mainGo a b blo bhi is p.1 p.2

/-- Backward extension: `while besti > alo and bestj > blo and
a[besti-1] == b[bestj-1]` (structural recursion on `besti`; the subtractions
`besti - 1`, `bestj - 1` match Python because the loop guard keeps both
positive). -/
def extendBack (a b : List Char) (alo blo : Nat) : Nat → Nat → Nat → Nat × Nat × Nat
  | 0, bestj, bestsize => (0, bestj, bestsize)
  | besti + 1, bestj, bestsize =>
    if alo ≤ besti ∧ blo < bestj ∧ a.getD besti default = b.getD (bestj - 1) default then
      extendBack a b alo blo besti (bestj - 1) (bestsize + 1)
    else (besti + 1, bestj, bestsize)

/-- Forward extension: `while besti+bestsize < ahi and bestj+bestsize < bhi
and a[besti+bestsize] == b[bestj+bestsize]`.  Fuel `ahi - (besti + bestsize)`
is exactly the number of iterations the guard `besti + bestsize < ahi` admits,
so the fuel never runs out before the Python loop would stop. -/
def extendFwd (a b : List Char) (ahi bhi besti bestj : Nat) : Nat → Nat → Nat
  | 0, bestsize => bestsize
  | fuel + 1, bestsize =>
    if besti + bestsize < ahi ∧ bestj + bestsize < bhi ∧
        a.getD (besti + bestsize) default = b.getD (bestj + bestsize) default then
      extendFwd a b ahi bhi besti bestj fuel (bestsize + 1)
    else bestsize

/-- `SequenceMatcher.find_longest_match(alo, ahi, blo, bhi)`, returning
`(besti, bestj, bestsize)`. -/
def findLongestMatch (a b : List Char) (alo ahi blo bhi : Nat) : Nat × Nat × Nat :=
  let m := mainGo a b blo bhi (List.range' alo (ahi - alo)) (fun _ => 0) (alo, blo, 0)
  let m2 := extendBack a b alo blo m.1 m.2.1 m.2.2
  (m2.1, m2.2.1, extendFwd a b ahi bhi m2.1 m2.2.1 (ahi - (m2.1 + m2.2.2)) m2.2.2)

/-- Total size of the matching blocks of `get_matching_blocks` on the window
`(alo, ahi, blo, bhi)`: recursively split around the longest match.  The fuel
argument only serves termination: every recursive call strictly shrinks the
`a`-window, so fuel `ahi - alo + 1` (as supplied by `seqRatio`) is never
exhausted and the value agrees with CPython's queue-based recursion. -/
def matchedTotal (a b : List Char) : Nat → Nat → Nat → Nat → Nat → Nat
  | 0, _, _, _, _ => 0
  | fuel + 1, alo, ahi, blo, bhi =>
    let m := findLongestMatch a b alo ahi blo bhi
    if m.2.2 = 0 then 0
    else
      matchedTotal a b fuel alo m.1 blo m.2.1 + m.2.2 +
        matchedTotal a b fuel (m.1 + m.2.2) ahi (m.2.1 + m.2.2) bhi

/-- `SequenceMatcher(None, a, b).ratio()`:
`2*M / (len(a)+len(b))`, and `1.0` when both are empty
(difflib's `_calculate_ratio`). -/
def seqRatio (a b : List Char) : ℚ :=
  if a.length + b.length = 0 then 1
  else 2 * (matchedTotal a b (a.length + 1) 0 a.length 0 b.length : ℚ)
    / (a.length + b.length)

/-! ## tmdb_verifier.calculate_title_similarity -/

/-- Python `str.strip()`: remove leading and trailing whitespace. -/
def pyStrip (t : List Char) : List Char :=
  ((t.dropWhile Char.isWhitespace).reverse.dropWhile Char.isWhitespace).reverse

/-- One pass `if t.startswith(p): t = t[len(p):]` of the article-stripping
loop in `calculate_title_similarity`. -/
def dropArticle (p t : List Char) : List Char :=
  if p.isPrefixOf t then t.drop p.length else t

/-- Normalisation performed on each title: lower-case, strip, then the loop
`for prefix in ["the ", "a ", "an "]` (sequentially, in that order).
`Char.toLower` matches Python `str.lower()` on the ASCII titles at issue. -/
def normalizeTitle (s : String) : List Char :=
  dropArticle "an ".toList (dropArticle "a ".toList (dropArticle "the ".toList
    (pyStrip (s.toList.map Char.toLower))))

/-- `TMDbVerifier.calculate_title_similarity`. -/
def calculate_title_similarity (t1 t2 : String) : ℚ :=
  seqRatio (normalizeTitle t1) (normalizeTitle t2)

/-! ## tmdb_verifier.TMDbVerifier

External HTTP calls are oracles: `search` is the list returned by
`search_movie` (empty on transport error), `details` maps a TMDb id to the
result of `get_movie_details` (`none` on transport error).  The free-text
`match_reason` / reasoning fields, which no logic ever reads, are omitted
from the result record. -/

/-- `TMDbVerifier.CLASSIC_STUDIOS` (a Python set; iteration order is
irrelevant because only "does any fragment match" and the matched company
names are used). -/
def CLASSIC_STUDIOS : List String :=
  ["Metro-Goldwyn-Mayer", "MGM", "Paramount", "Paramount Pictures",
   "Warner Bros.", "Warner Brothers", "Universal", "Universal Pictures",
   "20th Century Fox", "20th Century-Fox", "Twentieth Century Fox",
   "RKO", "RKO Radio Pictures", "Columbia Pictures", "Columbia",
   "United Artists", "Republic Pictures", "Monogram Pictures",
   "Allied Artists", "American International Pictures", "AIP",
   "Selznick International Pictures", "The Criterion Collection",
   "British Film Institute", "Ealing Studios", "Hammer Film Productions",
   "Path√©", "Gaumont", "UFA", "Mosfilm", "Toho"]

/-- One item of a TMDb `search/movie` response (the fields read by the code). -/
structure SearchItem where
  id : Nat
  title : String
  deriving Repr, DecidableEq

/-- A TMDb `movie/{id}` details response (the fields read by the code);
`production_companies` is the list of company `name`s. -/
structure MovieDetails where
  title : String := ""
  release_date : String := ""
  production_companies : List String := []
  runtime : Option Nat := none
  deriving Repr, DecidableEq

/-- Python's `needle in hay` on strings: contiguous substring containment. -/
def strInStr (needle hay : String) : Bool :=
  decide (needle.toList <:+: hay.toList)

/-- Python `classic_studio.lower() in company_name.lower()` (`str.lower()`
as per-character lower-casing; the studio constants and company names at
issue are ASCII). -/
def containsSub (needle hay : String) : Bool :=
  decide ((needle.toList.map Char.toLower) <:+: (hay.toList.map Char.toLower))

/-- Digit run of Python `int(s)`: every remaining character must be a
decimal digit. -/
def digitsToNatGo : List Char → Nat → Option Nat
  | [], acc => some acc
  | c :: cs, acc =>
    if c.isDigit then digitsToNatGo cs (acc * 10 + (c.toNat - '0'.toNat)) else none

/-- Value of a nonempty all-digit string, else `none`. -/
def digitsToNat (l : List Char) : Option Nat :=
  if l.isEmpty then none else digitsToNatGo l 0

/-- Python `int(s)` on the date prefixes at issue: an optional sign followed
by at least one digit; anything else raises `ValueError` (`none`). -/
def parseIntPy : List Char → Option Int
  | '-' :: rest => (digitsToNat rest).map fun n => -(n : Int)
  | '+' :: rest => (digitsToNat rest).map fun n => (n : Int)
  | l => (digitsToNat l).map fun n => (n : Int)

/-- Company names matching some classic-studio fragment
(`TMDbVerifier.is_classic_studio`'s `matching_studios`, in company order). -/
def matchingStudios (production_companies : List String) : List String :=
  production_companies.filter fun company =>
    CLASSIC_STUDIOS.any fun s => containsSub s company

/-- The verification result dict of `TMDbVerifier.verify_movie`
(initialised to the defaults at the top of the function). -/
structure VerificationResult where
  verified : Bool := false
  confidence : ℚ := 0
  tmdb_id : Option Nat := none
  tmdb_title : String := ""
  release_year : Option Int := none
  is_pre_1965 : Bool := false
  production_companies : List String := []
  is_classic_studio : Bool := false
  runtime_minutes : Option Nat := none
  runtime_match : Bool := false
  title_similarity : ℚ := 0
  deriving Repr, DecidableEq

/-- The best-match loop of `verify_movie`: strict improvement only, so the
first result attaining the maximal similarity wins; `best_match` stays `None`
while every similarity is `0.0`. -/
def bestMatch (vimeo_title : String) (results : List SearchItem) :
    Option SearchItem × ℚ :=
  results.foldl
    (fun acc movie =>
      let s := calculate_title_similarity vimeo_title movie.title
      if acc.2 < s then (some movie, s) else acc)
    (none, 0)

/-- `TMDbVerifier.verify_movie` (year parsing: `int(release_date[:4])`,
skipped when the date is empty or unparsable, as in the `try/except`). -/
def verify_movie (search : List SearchItem) (details : Nat → Option MovieDetails)
    (vimeo_title : String) (vimeo_duration_seconds : Nat) : VerificationResult :=
  if search.isEmpty then {}
  else
    match bestMatch vimeo_title search with
    | (none, _) => {}
    | (some best, best_similarity) =>
      if best_similarity < 3/5 then {}
      else
        match details best.id with
        | none => {}
        | some d =>
          let ry : Option Int :=
            if d.release_date.isEmpty then none
            else parseIntPy (d.release_date.toList.take 4)
          let pre : Bool := (ry.map fun y => decide (y < 1965)).getD false
          let ms := matchingStudios d.production_companies
          let classic : Bool := !ms.isEmpty
          let hasRt : Bool := d.runtime.getD 0 ≠ 0
          let rtm : Bool := hasRt &&
            decide (|(d.runtime.getD 0 : ℚ) - (vimeo_duration_seconds : ℚ) / 60| ≤ 10)
          let conf : ℚ := best_similarity * 40 + (if pre then 30 else 0)
            + (if classic then 20 else 0) + (if rtm then 10 else 0)
          { verified := pre && (classic || decide ((17:ℚ)/20 ≤ best_similarity))
            confidence := min conf 100
            tmdb_id := some best.id
            tmdb_title := d.title
            release_year := ry
            is_pre_1965 := pre
            production_companies := if ms.isEmpty then d.production_companies.take 3 else ms
            is_classic_studio := classic
            runtime_minutes := if hasRt then d.runtime else none
            runtime_match := rtm
            title_similarity := best_similarity }

/-! ## The candidate record

`Video` models the candidate dict flowing through the pipeline: the
collector's base fields plus the classification fields appended by the AI
sub-stages and the TMDb / scoring stages (`none` = key absent).  Fields that
only ever feed prompt text or exported free text (user, likes, dates,
reasoning strings, era/genre labels) are omitted: no retention predicate or
score reads them. -/

structure Video where
  title : String := ""
  url : String := ""
  description : String := ""
  duration : Nat := 0
  tags : List String := []
  views : Option Nat := none
  content_type : Option String := none
  content_confidence : Option ℚ := none
  is_feature_film : Option Bool := none
  has_narrative : Option Bool := none
  narrative_confidence : Option ℚ := none
  is_pre_1965 : Option Bool := none
  quality_score : Option Int := none
  tmdb_verification : Option VerificationResult := none
  final_score : Option ℚ := none
  deriving Repr, DecidableEq

/-! ## comprehensive_movie_finder: Stage 1 (collector) -/

/-- `config["min_duration"] = 45 * 60`. -/
def min_duration : Nat := 45 * 60

/-- `config["max_duration"] = 180 * 60`. -/
def max_duration : Nat := 180 * 60

/-- The two `continue` guards of the duration filter in
`stage1_vimeo_search`: a video survives iff neither
`duration < min_duration` nor `duration > max_duration` holds. -/
def durationPasses (minD maxD d : Nat) : Bool :=
  !(d < minD) && !(maxD < d)

/-- Body of the per-video loop of `stage1_vimeo_search`: duration filter,
then first-occurrence dedup against the `seen_urls` set (modelled as the
list of already-retained URLs, which it equals exactly). -/
def collectStep (minD maxD : Nat) (st : List Video × List String) (video : Video) :
    List Video × List String :=
  if video.duration < minD then st
  else if maxD < video.duration then st
  else if video.url ∈ st.2 then st
  else (st.1 ++ [video], st.2 ++ [video.url])

/-- `ComprehensiveMovieFinder.stage1_vimeo_search`: the per-query result
lists (the external `search_videos` responses, in query order) are an input;
dedup state persists across queries. -/
def stage1_vimeo_search (queryResults : List (List Video)) : List Video :=
  (queryResults.flatten.foldl (collectStep min_duration max_duration) ([], [])).1

/-! ## Stage 2 (keyword pre-filter) -/

/-- `ComprehensiveMovieFinder.BLACKLIST_KEYWORDS`, verbatim (the entries are
matched as-is against lower-cased text, so e.g. "VFX" can never hit — kept
faithful to the source). -/
def BLACKLIST_KEYWORDS : List String :=
  ["trailer", "teaser", "promo", "preview", "clip",
   "behind the scenes", "making of", "breakdown", "VFX",
   "test", "demo", "reel", "showreel", "recap",
   "review", "analysis", "essay", "critique",
   "supercut", "compilation", "montage", "tribute",
   "how to", "tutorial", "lesson", "workshop",
   "interview", "Q&A", "panel", "discussion",
   "opener", "bumper", "ident", "logo", "intro",
   "campaign", "ad", "commercial", "spot"]

/-- `keyword in title or keyword in description or keyword in " ".join(tags)`
over the lower-cased title/description and lower-cased tags. -/
def hasBlacklistKeyword (v : Video) : Bool :=
  let title := v.title.toLower
  let description := v.description.toLower
  let tagsText := String.intercalate " " (v.tags.map String.toLower)
  BLACKLIST_KEYWORDS.any fun kw =>
    strInStr kw title || strInStr kw description || strInStr kw tagsText

/-- `ComprehensiveMovieFinder.stage2_keyword_prefilter`. -/
def stage2_keyword_prefilter (videos : List Video) : List Video :=
  videos.filter fun v => !hasBlacklistKeyword v

/-! ## Stage 3 (AI classification, three sub-stages)

Each sub-stage slices its input into fixed-size batches, sends one request
per batch and merges the verdicts positionally (`zip`, which silently
truncates when the parsed response is shorter than the batch), keeping the
batch unmodified when the call fails or its response does not parse
(`enhanced_videos.extend(batch)`); afterwards a retention filter keeps only
candidates whose merged verdict fields pass.  The classification collaborator
is an oracle from batch number to `none` (transport error / JSON parse
error) or the parsed verdict list. -/

/-- Sub-stage A verdict fields merged into the candidate
(`content_reasoning` free text omitted). -/
structure StageAVerdict where
  content_type : String
  content_confidence : ℚ
  deriving Repr, DecidableEq

/-- Sub-stage B verdict fields merged into the candidate
(`film_reasoning` free text omitted). -/
structure StageBVerdict where
  is_feature_film : Bool
  has_narrative : Bool
  narrative_confidence : ℚ
  deriving Repr, DecidableEq

/-- Sub-stage C verdict fields read by any retention predicate or score
(year/era/studio/genre annotations and free text omitted: nothing
downstream branches on them). -/
structure StageCVerdict where
  is_pre_1965 : Bool
  quality_score : Int
  deriving Repr, DecidableEq

/-- `video.update(classification)` for sub-stage A. -/
def updateA (v : Video) (c : StageAVerdict) : Video :=
  { v with content_type := some c.content_type,
           content_confidence := some c.content_confidence }

/-- `video.update(classification)` for sub-stage B. -/
def updateB (v : Video) (c : StageBVerdict) : Video :=
  { v with is_feature_film := some c.is_feature_film,
           has_narrative := some c.has_narrative,
           narrative_confidence := some c.narrative_confidence }

/-- `video.update(classification)` for sub-stage C. -/
def updateC (v : Video) (c : StageCVerdict) : Video :=
  { v with is_pre_1965 := some c.is_pre_1965,
           quality_score := some c.quality_score }

/-- The batching loop `for i in range(0, len(videos), batch_size)` shared by
the three sub-stages: batch `k` is merged with `oracle k` via `zip` when the
call succeeds, else passed through unmodified.  The fuel (initially the input
length, consumed one per batch while every batch takes at least one video)
only serves termination and is never exhausted. -/
def enhanceGo {C : Type} (bs : Nat) (upd : Video → C → Video)
    (oracle : Nat → Option (List C)) : Nat → Nat → List Video → List Video
  | 0, _, _ => []
  | _ + 1, _, [] => []
  | fuel + 1, k, v :: vs =>
    (match oracle k with
     | some cls => List.zipWith upd (v :: vs.take (bs - 1)) cls
     | none => v :: vs.take (bs - 1)) ++
      enhanceGo bs upd oracle fuel (k + 1) (vs.drop (bs - 1))

/-- The `enhanced_videos` list a sub-stage accumulates before its retention
filter. -/
def enhanceBatches {C : Type} (bs : Nat) (upd : Video → C → Video)
    (oracle : Nat → Option (List C)) (videos : List Video) : List Video :=
  enhanceGo bs upd oracle videos.length 0 videos

/-- `AIMovieVerifier.stage1_content_type_detection` (batch size 10; retains
`content_type == "MOVIE" and content_confidence > 0.7`). -/
def stage1_content_type_detection (oracle : Nat → Option (List StageAVerdict))
    (videos : List Video) : List Video :=
  (enhanceBatches 10 updateA oracle videos).filter fun v =>
    decide (v.content_type = some "MOVIE") &&
      decide ((7:ℚ)/10 < v.content_confidence.getD 0)

/-- `AIMovieVerifier.stage2_feature_film_analysis` (batch size 8; retains
`is_feature_film == True and narrative_confidence > 0.6`). -/
def stage2_feature_film_analysis (oracle : Nat → Option (List StageBVerdict))
    (videos : List Video) : List Video :=
  (enhanceBatches 8 updateB oracle videos).filter fun v =>
    decide (v.is_feature_film = some true) &&
      decide ((3:ℚ)/5 < v.narrative_confidence.getD 0)

/-- `AIMovieVerifier.stage3_era_studio_verification` (batch size 8; retains
`is_pre_1965 == True and quality_score >= 6`). -/
def stage3_era_studio_verification (oracle : Nat → Option (List StageCVerdict))
    (videos : List Video) : List Video :=
  (enhanceBatches 8 updateC oracle videos).filter fun v =>
    decide (v.is_pre_1965 = some true) &&
      decide ((6:Int) ≤ v.quality_score.getD 0)

/-! ## Stage 5 (scoring & ranking) -/

/-- Duration-appropriateness bonus bands of `stage5_scoring_ranking`
(argument in minutes). -/
def durationBonus (duration_min : ℚ) : ℚ :=
  if 70 ≤ duration_min ∧ duration_min ≤ 120 then 10
  else if 60 ≤ duration_min ∧ duration_min ≤ 150 then 7
  else if 45 ≤ duration_min ∧ duration_min ≤ 180 then 4
  else 0

/-- View-count bonus bands of `stage5_scoring_ranking`. -/
def popularityBonus (views : Nat) : ℚ :=
  if 100000 ≤ views then 10
  else if 50000 ≤ views then 7
  else if 10000 ≤ views then 5
  else if 1000 ≤ views then 3
  else 0

/-- The pre-rounding score accumulated by `stage5_scoring_ranking`
(`.get` defaults: quality 0, confidence 0, views `or 0`, verified falsy). -/
def rawScore (v : Video) : ℚ :=
  ((v.quality_score.getD 0 : ℚ) / 10) * 40
    + ((v.tmdb_verification.map (·.confidence)).getD 0 / 100) * 30
    + durationBonus ((v.duration : ℚ) / 60)
    + popularityBonus (v.views.getD 0)
    + (if (v.tmdb_verification.map (·.verified)).getD false then 10 else 0)

/-- Python `round(score, 1)` (round-half-even on floats; every
claim-relevant value is an exact multiple of 1/10, where the two rounding
modes and float/rational arithmetic agree). -/
def round1 (q : ℚ) : ℚ := (round (10 * q) : ℤ) / 10

/-- `video["final_score"] = round(score, 1)`. -/
def scoreVideo (v : Video) : Video :=
  { v with final_score := some (round1 (rawScore v)) }

/-- Stable descending insertion: place `v` before the first element of
strictly smaller score, after all elements of greater-or-equal score. -/
def insertScored (v : Video) : List Video → List Video
  | [] => [v]
  | w :: ws =>
    if w.final_score.getD 0 < v.final_score.getD 0 then v :: w :: ws
    else w :: insertScored v ws

/-- `videos.sort(key=lambda v: v["final_score"], reverse=True)`: CPython's
sort is stable, and with `reverse=True` it produces the descending order in
which equal-score elements keep their original relative order.  A stable
sort for a total preorder is uniquely determined by that specification, so
the stable descending insertion sort below computes the same list. -/
def sortByScoreDesc (videos : List Video) : List Video :=
  videos.foldl (fun acc v => insertScored v acc) []

/-- `ComprehensiveMovieFinder.stage5_scoring_ranking`: attach
`final_score` to every video, then sort descending (stable). -/
def stage5_scoring_ranking (videos : List Video) : List Video :=
  sortByScoreDesc (videos.map scoreVideo)

/-! ## Stage 6 (export) -/

/-- The observable file-writing effects of `stage6_export`, in order. -/
inductive ExportEvent
  | csvWritten
  | jsonWritten
  deriving Repr, DecidableEq

/-- `ComprehensiveMovieFinder.stage6_export`, as its effect trace plus
normal/abrupt completion: the CSV is written only when `csv_rows` (one row
per input video) is nonempty, the JSON dump is unconditional, and the
statistics section then evaluates
`tmdb_verified/len(videos)` with no emptiness guard — a `ZeroDivisionError`
exactly when `videos` is empty (the later averages are guarded by
`if videos else 0`). -/
def stage6_export (videos : List Video) : List ExportEvent × Except String Unit :=
  let events := (if videos.isEmpty then [] else [ExportEvent.csvWritten])
    ++ [ExportEvent.jsonWritten]
  if videos.isEmpty then (events, Except.error "ZeroDivisionError")
  else (events, Except.ok ())

/-! ## Concrete records used by scenario theorems and witnesses -/

/-- The Signal-Fusion scenario candidate: duration 6300 s, quality 9,
TMDb confidence 90, verified, 150000 views. -/
def fusionScenarioTmdb : VerificationResult :=
  { verified := true, confidence := 90 }

/-- The Signal-Fusion scenario candidate record. -/
def fusionScenarioVideo : Video :=
  { duration := 6300
    views := some 150000
    quality_score := some 9
    tmdb_verification := some fusionScenarioTmdb }

/-- A collector candidate with a given duration (for boundary checks). -/
def durVideo (d : Nat) : Video :=
  { url := "https://vimeo.com/v", duration := d }

/-- TMDb details oracle used by the cross-reference witnesses: id 7 is
Fritz Lang's "M" (1931, runtime 117 min). -/
def mDetails : Nat → Option MovieDetails := fun i =>
  if i = 7 then
    some { title := "M", release_date := "1931-05-11",
           production_companies := ["Nero-Film AG"], runtime := some 117 }
  else none

/-- A raw candidate that has never been classified (all verdict fields
absent), used for the failed-batch scenarios. -/
def unclassifiedVideo : Video :=
  { title := "Metropolis", url := "https://vimeo.com/42", duration := 6000 }

end VimeoScraper

namespace VimeoScraper

/-! ## Theorems -/

/-- **C2.** For the candidate with duration 6300 s (105 min), quality 9,
TMDb confidence 90, verified and 150000 views, Signal Fusion assigns final
score exactly 93.0, decomposed as quality term 36 + cross-reference term 27
+ duration bonus 10 + popularity bonus 10 + verified bonus 10, the duration
and popularity bonuses coming from the banded step functions. -/
theorem signal_fusion_scenario_score_93 :
    ((fusionScenarioVideo.quality_score.getD 0 : ℚ) / 10) * 40 = 36 ∧
    (((fusionScenarioVideo.tmdb_verification.map (·.confidence)).getD 0) / 100) * 30 = 27 ∧
    durationBonus ((fusionScenarioVideo.duration : ℚ) / 60) = 10 ∧
    popularityBonus (fusionScenarioVideo.views.getD 0) = 10 ∧
    (if (fusionScenarioVideo.tmdb_verification.map (·.verified)).getD false then (10:ℚ) else 0) = 10 ∧
    rawScore fusionScenarioVideo = 93 ∧
    (scoreVideo fusionScenarioVideo).final_score = some 93 := by
  refine ⟨by norm_num [fusionScenarioVideo], ?_, ?_, ?_, ?_, ?_, ?_⟩ <;>
    simp [fusionScenarioVideo, fusionScenarioTmdb, rawScore, scoreVideo, round1,
      durationBonus, popularityBonus] <;> norm_num

/-- The running best similarity of `bestMatch` never drops below its
starting value. -/
theorem bestMatch_fold_nonneg (t : String) (rs : List SearchItem)
    (acc : Option SearchItem × ℚ) (h : 0 ≤ acc.2) :
    0 ≤ (rs.foldl
      (fun acc movie =>
        let s := calculate_title_similarity t movie.title
        if acc.2 < s then (some movie, s) else acc) acc).2 := by
  induction rs generalizing acc with
  | nil => exact h
  | cons m ms ih =>
    simp only [List.foldl_cons]
    apply ih
    dsimp only
    split
    · exact le_of_lt (lt_of_le_of_lt h (by assumption))
    · exact h

/-- The similarity returned by `bestMatch` is nonnegative. -/
theorem bestMatch_nonneg (t : String) (rs : List SearchItem) :
    0 ≤ (bestMatch t rs).2 :=
  bestMatch_fold_nonneg t rs (none, 0) le_rfl

/-- **C3.** For every candidate processed by `verify_movie`, the verified
flag is true iff the pre-cutoff-year flag is true AND (the classic-studio
flag is true OR title similarity ≥ 0.85); in particular verified is never
true when `is_pre_1965` is false (for any similarity/studio/runtime
values).  The equivalence holds in terms of the result's own fields on every
path, including the unverified early returns. -/
theorem verify_movie_verified_iff_pre1965_and_studio_or_strong_title
    (search : List SearchItem) (details : Nat → Option MovieDetails)
    (vimeo_title : String) (vimeo_duration_seconds : Nat) :
    ((verify_movie search details vimeo_title vimeo_duration_seconds).verified = true ↔
      ((verify_movie search details vimeo_title vimeo_duration_seconds).is_pre_1965 = true ∧
        ((verify_movie search details vimeo_title vimeo_duration_seconds).is_classic_studio = true ∨
          (17:ℚ)/20 ≤ (verify_movie search details vimeo_title vimeo_duration_seconds).title_similarity))) ∧
    ((verify_movie search details vimeo_title vimeo_duration_seconds).is_pre_1965 = false →
      (verify_movie search details vimeo_title vimeo_duration_seconds).verified = false) := by
  unfold verify_movie
  split
  · simp
  · split
    · simp
    · split
      · simp
      · split
        · simp
        · dsimp only
          constructor
          · simp only [Bool.and_eq_true, Bool.or_eq_true, decide_eq_true_eq]
          · intro h
            rw [h, Bool.false_and]

/-- Closed instance of
`verify_movie_verified_iff_pre1965_and_studio_or_strong_title`: with no
search results the era flag is false and verification is refused. -/
theorem verify_movie_verified_iff_witness :
    (verify_movie [] mDetails "x" 0).verified = false :=
  (verify_movie_verified_iff_pre1965_and_studio_or_strong_title
    [] mDetails "x" 0).2 rfl

/-- **C10.** Calling `stage6_export` on the empty candidate list raises a
`ZeroDivisionError` when computing the TMDb verification rate, and only
after the JSON output has already been written (no CSV is written because
`csv_rows` is empty): the export operation is partial on the empty list. -/
theorem stage6_export_empty_zero_division :
    stage6_export [] = ([ExportEvent.jsonWritten], Except.error "ZeroDivisionError") := rfl

/-- Every video retained by the collector fold satisfies the duration
bounds, provided the accumulator already does. -/
theorem collect_foldl_duration (minD maxD : Nat) :
    ∀ (l : List Video) (st : List Video × List String),
      (∀ v ∈ st.1, minD ≤ v.duration ∧ v.duration ≤ maxD) →
      ∀ v ∈ (l.foldl (collectStep minD maxD) st).1,
        minD ≤ v.duration ∧ v.duration ≤ maxD := by
  intro l
  induction l with
  | nil => intro st h; exact h
  | cons x xs ih =>
    intro st h
    simp only [List.foldl_cons]
    apply ih
    unfold collectStep
    split
    · exact h
    · rename_i hmin
      split
      · exact h
      · rename_i hmax
        split
        · exact h
        · intro v hv
          rcases List.mem_append.mp hv with h1 | h2
          · exact h v h1
          · rcases List.mem_singleton.mp h2 with rfl
            omega

/-- The duration guards of `collectStep` commute with pre-filtering the
stream by `durationPasses`: a failing video leaves the state untouched. -/
theorem collect_foldl_filter (minD maxD : Nat) :
    ∀ (l : List Video) (st : List Video × List String),
      l.foldl (collectStep minD maxD) st =
        (l.filter fun v => durationPasses minD maxD v.duration).foldl
          (collectStep minD maxD) st := by
  intro l
  induction l with
  | nil => intro st; rfl
  | cons x xs ih =>
    intro st
    by_cases hx : durationPasses minD maxD x.duration = true
    · have hfil : (x :: xs).filter (fun v => durationPasses minD maxD v.duration) =
          x :: xs.filter (fun v => durationPasses minD maxD v.duration) := by
        simp [List.filter_cons, hx]
      rw [List.foldl_cons, hfil, List.foldl_cons, ih]
    · rw [Bool.not_eq_true] at hx
      have hfil : (x :: xs).filter (fun v => durationPasses minD maxD v.duration) =
          xs.filter (fun v => durationPasses minD maxD v.duration) := by
        simp [List.filter_cons, hx]
      have hx' : collectStep minD maxD st x = st := by
        unfold durationPasses at hx
        unfold collectStep
        simp only [Bool.and_eq_false_iff, Bool.not_eq_false', decide_eq_true_eq] at hx
        rcases hx with h | h
        · simp [h]
        · split
          · rfl
          · simp [h]
      rw [List.foldl_cons, hx', hfil, ih]

/-- Invariants of the dedup fold: the seen set stays the retained URL list,
the retained suffix is a sublist of the processed stream, URL-nodup is
preserved, and the retained video for any URL is its first occurrence. -/
theorem collect_foldl_dedup (minD maxD : Nat) :
    ∀ (l : List Video) (st : List Video × List String),
      (∀ v ∈ l, durationPasses minD maxD v.duration = true) →
      st.2 = st.1.map (·.url) →
      ((l.foldl (collectStep minD maxD) st).2 =
          (l.foldl (collectStep minD maxD) st).1.map (·.url)) ∧
      (∃ r, (l.foldl (collectStep minD maxD) st).1 = st.1 ++ r ∧ r.Sublist l) ∧
      ((st.1.map (·.url)).Nodup →
        ((l.foldl (collectStep minD maxD) st).1.map (·.url)).Nodup) ∧
      (∀ u : String,
        (l.foldl (collectStep minD maxD) st).1.find? (fun v => v.url == u) =
          (st.1.find? (fun v => v.url == u)).or (l.find? (fun v => v.url == u))) := by
  intro l
  induction l with
  | nil =>
    intro st _ hsync
    refine ⟨hsync, ⟨[], by simp, List.nil_sublist _⟩, fun h => h, fun u => ?_⟩
    rw [List.foldl_nil, List.find?_nil, Option.or_none]
  | cons x xs ih =>
    intro st hpass hsync
    have hx : durationPasses minD maxD x.duration = true := hpass x (List.mem_cons_self x xs)
    have hstep : collectStep minD maxD st x =
        if x.url ∈ st.2 then st else (st.1 ++ [x], st.2 ++ [x.url]) := by
      unfold durationPasses at hx
      unfold collectStep
      simp only [Bool.and_eq_true, Bool.not_eq_true', decide_eq_false_iff_not] at hx
      rw [if_neg (by omega), if_neg (by omega)]
    simp only [List.foldl_cons, hstep]
    by_cases hseen : x.url ∈ st.2
    · rw [if_pos hseen]
      obtain ⟨hsync', hsub, hnodup, hfind⟩ :=
        ih st (fun v hv => hpass v (List.mem_cons_of_mem _ hv)) hsync
      refine ⟨hsync', ?_, hnodup, ?_⟩
      · obtain ⟨r, hr, hrs⟩ := hsub
        exact ⟨r, hr, hrs.cons x⟩
      · intro u
        rw [hfind u]
        by_cases hu : x.url = u
        · subst hu
          have hmem : x.url ∈ st.1.map (·.url) := by rw [← hsync]; exact hseen
          obtain ⟨w, hw, hwu⟩ := List.mem_map.mp hmem
          have hsome : (st.1.find? (fun v => v.url == x.url)).isSome := by
            apply List.find?_isSome.mpr
            exact ⟨w, hw, by simp [hwu]⟩
          obtain ⟨w', hw'⟩ := Option.isSome_iff_exists.mp hsome
          rw [hw']
          rfl
        · rw [List.find?_cons_of_neg _ (by simp [hu])]
    · rw [if_neg hseen]
      have hsync2 : (st.1 ++ [x], st.2 ++ [x.url]).2 =
          (st.1 ++ [x], st.2 ++ [x.url]).1.map (·.url) := by
        simp [hsync]
      obtain ⟨hsync', hsub, hnodup, hfind⟩ :=
        ih _ (fun v hv => hpass v (List.mem_cons_of_mem _ hv)) hsync2
      refine ⟨hsync', ?_, ?_, ?_⟩
      · obtain ⟨r, hr, hrs⟩ := hsub
        exact ⟨x :: r, by simpa using hr, hrs.cons₂ x⟩
      · intro hnd
        apply hnodup
        simp only [List.map_append, List.map_cons, List.map_nil]
        rw [List.nodup_append]
        refine ⟨hnd, List.nodup_singleton _, ?_⟩
        intro a ha hb
        rcases List.mem_singleton.mp hb with rfl
        exact hseen (by rw [hsync]; exact ha)
      · intro u
        rw [hfind u]
        by_cases hu : x.url = u
        · subst hu
          have hnone : st.1.find? (fun v => v.url == x.url) = none := by
            rw [List.find?_eq_none]
            intro w hw hwu
            exact hseen (by rw [hsync]; exact List.mem_map.mpr ⟨w, hw, by simpa using hwu⟩)
          have hb : (x.url == x.url) = true := by simp
          have h1 : List.find? (fun v => v.url == x.url) [x] = some x := by
            simp [List.find?_cons, hb]
          have h2 : List.find? (fun v => v.url == x.url) (x :: xs) = some x := by
            simp [List.find?_cons, hb]
          rw [List.find?_append, hnone, h1, h2]
          rfl
        · have hb : (x.url == u) = false := by simp [hu]
          have h1 : List.find? (fun v => v.url == u) [x] = none := by
            simp [List.find?_cons, hb]
          have h2 : List.find? (fun v => v.url == u) (x :: xs) =
              List.find? (fun v => v.url == u) xs := by
            simp [List.find?_cons, hb]
          rw [List.find?_append, h1, h2, Option.or_none]

/-- **C4.** The collector's duration filter retains a candidate exactly when
`min_duration ≤ duration ≤ max_duration` (defaults 2700–10800 s): every
collected video is within bounds, the guard predicate is the closed
interval, boundary durations are retained by the collector, one second
outside either bound is rejected, and duration 0 is rejected. -/
theorem stage1_duration_filter_boundaries :
    (∀ (queryResults : List (List Video)) (v : Video),
        v ∈ stage1_vimeo_search queryResults →
        min_duration ≤ v.duration ∧ v.duration ≤ max_duration) ∧
    (∀ d : Nat,
        durationPasses min_duration max_duration d = true ↔ 2700 ≤ d ∧ d ≤ 10800) ∧
    stage1_vimeo_search [[durVideo 2700]] = [durVideo 2700] ∧
    stage1_vimeo_search [[durVideo 10800]] = [durVideo 10800] ∧
    stage1_vimeo_search [[durVideo 2699]] = [] ∧
    stage1_vimeo_search [[durVideo 10801]] = [] ∧
    stage1_vimeo_search [[durVideo 0]] = [] := by
  refine ⟨?_, ?_, by decide, by decide, by decide, by decide, by decide⟩
  · intro queryResults v hv
    exact collect_foldl_duration min_duration max_duration queryResults.flatten
      ([], []) (by simp) v hv
  · intro d
    unfold durationPasses min_duration max_duration
    simp only [Bool.and_eq_true, Bool.not_eq_true', decide_eq_false_iff_not]
    omega

/-- Closed instance of the universally quantified part of
`stage1_duration_filter_boundaries`. -/
theorem stage1_duration_filter_boundaries_witness :
    (min_duration ≤ (durVideo 2700).duration ∧ (durVideo 2700).duration ≤ max_duration) ∧
    (durationPasses min_duration max_duration 10800 = true ↔ 2700 ≤ 10800 ∧ 10800 ≤ 10800) :=
  ⟨stage1_duration_filter_boundaries.1 [[durVideo 2700]] (durVideo 2700) (by decide),
   stage1_duration_filter_boundaries.2.1 10800⟩

/-- **C5.** For any two collected candidates with identical canonical URL,
only the first-encountered is retained regardless of the producing query,
later occurrences are discarded whole (the output is a sublist of the
duration-filtered stream, so no merged records), and no URL appears twice:
the retained video for any URL is exactly the first duration-passing video
with that URL in the concatenated query results. -/
theorem stage1_dedup_first_occurrence_wins (queryResults : List (List Video)) :
    ((stage1_vimeo_search queryResults).map (·.url)).Nodup ∧
    (stage1_vimeo_search queryResults).Sublist
      (queryResults.flatten.filter fun v =>
        durationPasses min_duration max_duration v.duration) ∧
    (∀ u : String,
      (stage1_vimeo_search queryResults).find? (fun v => v.url == u) =
        (queryResults.flatten.filter fun v =>
          durationPasses min_duration max_duration v.duration).find?
            (fun v => v.url == u)) := by
  unfold stage1_vimeo_search
  rw [collect_foldl_filter]
  obtain ⟨hsync, ⟨r, hr, hrs⟩, hnodup, hfind⟩ :=
    collect_foldl_dedup min_duration max_duration
      (queryResults.flatten.filter fun v =>
        durationPasses min_duration max_duration v.duration)
      ([], []) (fun v hv => (List.mem_filter.mp hv).2) rfl
  refine ⟨hnodup (by simp), ?_, ?_⟩
  · rw [hr]; simpa using hrs
  · intro u
    rw [hfind u]
    cases h : (queryResults.flatten.filter fun v =>
        durationPasses min_duration max_duration v.duration).find?
          (fun v => v.url == u) <;> rfl

/-- **C6.** The verification confidence always equals
`min (40·title_similarity + 30·[pre_cutoff] + 20·[classic_studio]
+ 10·[runtime_match]) 100` over the result's own fields — on the
accepted-match path this is the formula over the fetched details, on every
other path both sides are 0 — hence confidence always lies in [0, 100]; the
runtime-match flag holds iff the fetched official runtime is within ±10
minutes of the candidate's duration in minutes (and is false when no
official runtime was recorded). -/
theorem verify_movie_confidence_formula
    (search : List SearchItem) (details : Nat → Option MovieDetails)
    (vimeo_title : String) (vimeo_duration_seconds : Nat) :
    ((verify_movie search details vimeo_title vimeo_duration_seconds).confidence =
      min (40 * (verify_movie search details vimeo_title vimeo_duration_seconds).title_similarity
        + (if (verify_movie search details vimeo_title vimeo_duration_seconds).is_pre_1965 then (30:ℚ) else 0)
        + (if (verify_movie search details vimeo_title vimeo_duration_seconds).is_classic_studio then (20:ℚ) else 0)
        + (if (verify_movie search details vimeo_title vimeo_duration_seconds).runtime_match then (10:ℚ) else 0)) 100) ∧
    (0 ≤ (verify_movie search details vimeo_title vimeo_duration_seconds).confidence ∧
      (verify_movie search details vimeo_title vimeo_duration_seconds).confidence ≤ 100) ∧
    (∀ rt : Nat,
      (verify_movie search details vimeo_title vimeo_duration_seconds).runtime_minutes = some rt →
      ((verify_movie search details vimeo_title vimeo_duration_seconds).runtime_match = true ↔
        |(rt : ℚ) - (vimeo_duration_seconds : ℚ) / 60| ≤ 10)) ∧
    ((verify_movie search details vimeo_title vimeo_duration_seconds).runtime_minutes = none →
      (verify_movie search details vimeo_title vimeo_duration_seconds).runtime_match = false) := by
  unfold verify_movie
  split
  · refine ⟨by norm_num, by norm_num, fun rt h => by simp at h, fun _ => rfl⟩
  · split
    · refine ⟨by norm_num, by norm_num, fun rt h => by simp at h, fun _ => rfl⟩
    · rename_i best s heq
      split
      · refine ⟨by norm_num, by norm_num, fun rt h => by simp at h, fun _ => rfl⟩
      · rename_i hsim
        split
        · refine ⟨by norm_num, by norm_num, fun rt h => by simp at h, fun _ => rfl⟩
        · rename_i d hdet
          have hs : 0 ≤ s := by
            have h0 := bestMatch_nonneg vimeo_title search
            rw [heq] at h0
            exact h0
          dsimp only
          refine ⟨by rw [mul_comm], ⟨?_, min_le_right _ _⟩, ?_, ?_⟩
          · refine le_min ?_ (by norm_num)
            have h1 : (0:ℚ) ≤ s * 40 := by positivity
            have hite : ∀ (c : Prop) (inst : Decidable c) (q : ℚ), 0 ≤ q →
                0 ≤ (if c then q else 0) := by
              intro c inst q hq
              split
              · exact hq
              · exact le_refl 0
            exact add_nonneg (add_nonneg (add_nonneg h1
              (hite _ _ _ (by norm_num))) (hite _ _ _ (by norm_num)))
              (hite _ _ _ (by norm_num))
          · intro rt h
            by_cases hrt : (d.runtime.getD 0 ≠ 0 : Bool) = true
            · rw [if_pos hrt] at h
              rw [h] at hrt ⊢
              simp only [Option.getD_some, decide_eq_true_eq] at hrt
              simp [hrt]
            · rw [if_neg hrt] at h
              simp at h
          · intro h
            by_cases hrt : (d.runtime.getD 0 ≠ 0 : Bool) = true
            · rw [if_pos hrt] at h
              rw [h] at hrt
              simp at hrt
            · rw [Bool.not_eq_true] at hrt
              rw [hrt, Bool.false_and]

unseal Rat.add Rat.mul Rat.inv Rat.sub in
/-- Closed instance of `verify_movie_confidence_formula` at a concrete
accepted match with fetched details (runtime 117 min vs 7000 s ≈ 116.7 min). -/
theorem verify_movie_confidence_formula_witness :
    ((verify_movie [⟨7, "m"⟩] mDetails "m" 7000).runtime_match = true ↔
      |(117 : ℚ) - (7000 : ℚ) / 60| ≤ 10) ∧
    0 ≤ (verify_movie [⟨7, "m"⟩] mDetails "m" 7000).confidence :=
  ⟨(verify_movie_confidence_formula [⟨7, "m"⟩] mDetails "m" 7000).2.2.1 117 (by decide),
   (verify_movie_confidence_formula [⟨7, "m"⟩] mDetails "m" 7000).2.1.1⟩

/-- A positional merge keeps the URLs of the zipped prefix, for any verdict
merge that preserves the URL field. -/
theorem zipWith_upd_map_url {C : Type} (upd : Video → C → Video)
    (hupd : ∀ v c, (upd v c).url = v.url) :
    ∀ (b : List Video) (c : List C),
      (List.zipWith upd b c).map (·.url) = (b.take c.length).map (·.url) := by
  intro b
  induction b with
  | nil => intro c; simp
  | cons v vs ih =>
    intro c
    cases c with
    | nil => simp
    | cons x xs => simp [hupd, ih]

/-- The enhanced list of a sub-stage never invents, duplicates or reorders
candidates: its URL sequence is a subsequence of the input's. -/
theorem enhanceGo_map_url_sublist {C : Type} (bs : Nat) (upd : Video → C → Video)
    (hupd : ∀ v c, (upd v c).url = v.url) (oracle : Nat → Option (List C)) :
    ∀ (fuel k : Nat) (videos : List Video),
      ((enhanceGo bs upd oracle fuel k videos).map (·.url)).Sublist
        (videos.map (·.url)) := by
  intro fuel
  induction fuel with
  | zero => intro k videos; simp [enhanceGo]
  | succ f ih =>
    intro k videos
    cases videos with
    | nil => simp [enhanceGo]
    | cons v vs =>
      have hsplit : (v :: vs).map (·.url) =
          ((v :: vs.take (bs - 1)).map (·.url)) ++ ((vs.drop (bs - 1)).map (·.url)) := by
        simp
      rw [enhanceGo, List.map_append, hsplit]
      apply List.Sublist.append
      · cases h : oracle k with
        | none => exact List.Sublist.refl _
        | some cls =>
          rw [zipWith_upd_map_url upd hupd]
          exact (List.take_sublist _ _).map _
      · exact ih (k + 1) (vs.drop (bs - 1))

/-- **C7.** Every narrowing stage — the keyword pre-filter and each of the
three AI sub-stages, for every input and every classification oracle —
returns a subsequence of its input candidate list: no stage adds candidates,
re-admits a dropped one, or changes the relative order of survivors (the
AI sub-stages update verdict fields in place, so the invariant is stated on
the candidates' identity key, their URL). -/
theorem stages_narrow_subsequence :
    (∀ videos : List Video, (stage2_keyword_prefilter videos).Sublist videos) ∧
    (∀ (oracle : Nat → Option (List StageAVerdict)) (videos : List Video),
      ((stage1_content_type_detection oracle videos).map (·.url)).Sublist
        (videos.map (·.url))) ∧
    (∀ (oracle : Nat → Option (List StageBVerdict)) (videos : List Video),
      ((stage2_feature_film_analysis oracle videos).map (·.url)).Sublist
        (videos.map (·.url))) ∧
    (∀ (oracle : Nat → Option (List StageCVerdict)) (videos : List Video),
      ((stage3_era_studio_verification oracle videos).map (·.url)).Sublist
        (videos.map (·.url))) := by
  refine ⟨fun videos => List.filter_sublist _, ?_, ?_, ?_⟩
  · intro oracle videos
    exact ((List.filter_sublist _).map _).trans
      (enhanceGo_map_url_sublist 10 updateA (fun v c => rfl) oracle videos.length 0 videos)
  · intro oracle videos
    exact ((List.filter_sublist _).map _).trans
      (enhanceGo_map_url_sublist 8 updateB (fun v c => rfl) oracle videos.length 0 videos)
  · intro oracle videos
    exact ((List.filter_sublist _).map _).trans
      (enhanceGo_map_url_sublist 8 updateC (fun v c => rfl) oracle videos.length 0 videos)

/-- Stable descending insertion is a permutation (inserts exactly one copy). -/
theorem insertScored_perm (v : Video) :
    ∀ l : List Video, (insertScored v l).Perm (v :: l) := by
  intro l
  induction l with
  | nil => exact List.Perm.refl _
  | cons w ws ih =>
    rw [insertScored]
    split
    · exact List.Perm.refl _
    · exact (ih.cons w).trans (List.Perm.swap v w ws)

/-- Stable descending insertion preserves descending sortedness. -/
theorem insertScored_sorted (v : Video) :
    ∀ l : List Video,
      l.Pairwise (fun a b => b.final_score.getD 0 ≤ a.final_score.getD 0) →
      (insertScored v l).Pairwise
        (fun a b => b.final_score.getD 0 ≤ a.final_score.getD 0) := by
  intro l
  induction l with
  | nil => intro _; simp [insertScored]
  | cons w ws ih =>
    intro hp
    rw [insertScored]
    rcases List.pairwise_cons.mp hp with ⟨hw, hws⟩
    split
    · rename_i hlt
      refine List.pairwise_cons.mpr ⟨?_, hp⟩
      intro b hb
      rcases List.mem_cons.mp hb with rfl | hb
      · exact le_of_lt hlt
      · exact le_trans (hw b hb) (le_of_lt hlt)
    · rename_i hge
      push_neg at hge
      refine List.pairwise_cons.mpr ⟨?_, ih hws⟩
      intro b hb
      have hb' : b ∈ v :: ws := (insertScored_perm v ws).mem_iff.mp hb
      rcases List.mem_cons.mp hb' with rfl | hb'
      · exact hge
      · exact hw b hb'

/-- Stable descending insertion appends the new element at the end of its
equal-score group: filtering any score class commutes with insertion, the
new element landing last. -/
theorem insertScored_filter (v : Video) (s : ℚ) :
    ∀ l : List Video,
      l.Pairwise (fun a b => b.final_score.getD 0 ≤ a.final_score.getD 0) →
      (insertScored v l).filter (fun w => decide (w.final_score.getD 0 = s)) =
        l.filter (fun w => decide (w.final_score.getD 0 = s)) ++
          (if v.final_score.getD 0 = s then [v] else []) := by
  intro l
  induction l with
  | nil =>
    intro _
    rw [insertScored]
    by_cases hv : v.final_score.getD 0 = s
    · simp [List.filter, hv]
    · simp [List.filter, hv]
  | cons w ws ih =>
    intro hp
    rcases List.pairwise_cons.mp hp with ⟨hw, hws⟩
    rw [insertScored]
    split
    · rename_i hlt
      by_cases hv : v.final_score.getD 0 = s
      · have hnil : (w :: ws).filter (fun w => decide (w.final_score.getD 0 = s)) = [] := by
          rw [List.filter_eq_nil_iff]
          intro x hx
          rcases List.mem_cons.mp hx with rfl | hx
          · simp only [decide_eq_true_eq]
            intro hxs
            rw [← hv] at hxs
            exact absurd hxs (ne_of_lt hlt)
          · simp only [decide_eq_true_eq]
            intro hxs
            have := hw x hx
            rw [hxs, ← hv] at this
            exact absurd (lt_of_lt_of_le hlt this) (lt_irrefl _)
        rw [List.filter_cons_of_pos (by simp [hv]), hnil]
        simp [hv]
      · rw [List.filter_cons_of_neg (by simp [hv]), if_neg hv, List.append_nil]
    · rename_i hge
      by_cases hwq : w.final_score.getD 0 = s
      · rw [List.filter_cons_of_pos (by simp [hwq]),
          List.filter_cons_of_pos (by simp [hwq]), ih hws, List.cons_append]
      · rw [List.filter_cons_of_neg (by simp [hwq]),
          List.filter_cons_of_neg (by simp [hwq]), ih hws]

/-- Folding stable insertion over the input accumulates: sortedness, a
permutation of accumulator-plus-input, and per-score-class order
preservation (stability). -/
theorem sortFold_props (l : List Video) :
    ∀ acc : List Video,
      acc.Pairwise (fun a b => b.final_score.getD 0 ≤ a.final_score.getD 0) →
      ((l.foldl (fun acc v => insertScored v acc) acc).Pairwise
          (fun a b => b.final_score.getD 0 ≤ a.final_score.getD 0)) ∧
      ((l.foldl (fun acc v => insertScored v acc) acc).Perm (acc ++ l)) ∧
      (∀ s : ℚ,
        (l.foldl (fun acc v => insertScored v acc) acc).filter
            (fun w => decide (w.final_score.getD 0 = s)) =
          acc.filter (fun w => decide (w.final_score.getD 0 = s)) ++
            l.filter (fun w => decide (w.final_score.getD 0 = s))) := by
  induction l with
  | nil => intro acc h; exact ⟨h, by simp, fun s => by simp⟩
  | cons v vs ih =>
    intro acc h
    obtain ⟨h1, h2, h3⟩ := ih (insertScored v acc) (insertScored_sorted v acc h)
    refine ⟨h1, ?_, ?_⟩
    · refine h2.trans ?_
      have hp1 : (insertScored v acc ++ vs).Perm ((v :: acc) ++ vs) :=
        List.Perm.append_right vs (insertScored_perm v acc)
      exact hp1.trans List.perm_middle.symm
    · intro s
      rw [List.foldl_cons, h3 s, insertScored_filter v s acc h]
      by_cases hv : v.final_score.getD 0 = s
      · rw [if_pos hv, List.filter_cons_of_pos (by simp [hv]), List.append_assoc]
        rfl
      · rw [if_neg hv, List.filter_cons_of_neg (by simp [hv]), List.append_nil]

/-- **C8.** The ranking stage orders the scored candidates in descending
order of final score, is a permutation of the scored input (nothing added
or dropped), and is stable: for every score value, the candidates holding
that score appear in exactly the order they held entering the sort — no
secondary tie-break key exists. -/
theorem stage5_ranking_sorted_stable (videos : List Video) :
    ((stage5_scoring_ranking videos).Pairwise
        (fun a b => b.final_score.getD 0 ≤ a.final_score.getD 0)) ∧
    ((stage5_scoring_ranking videos).Perm (videos.map scoreVideo)) ∧
    (∀ s : ℚ,
      (stage5_scoring_ranking videos).filter (fun w => decide (w.final_score.getD 0 = s)) =
        (videos.map scoreVideo).filter (fun w => decide (w.final_score.getD 0 = s))) := by
  obtain ⟨h1, h2, h3⟩ := sortFold_props (videos.map scoreVideo) [] (by simp)
  exact ⟨h1, by simpa using h2, fun s => by simpa using h3 s⟩

/-- When the oracle fails on batch `j`, that batch's candidates land
unmodified in the sub-stage's enhanced list (for any batch size ≥ 1). -/
theorem enhanceGo_failed_batch_mem {C : Type} (bs : Nat) (hbs : 1 ≤ bs)
    (upd : Video → C → Video) (oracle : Nat → Option (List C)) :
    ∀ (j fuel k : Nat) (videos : List Video), videos.length ≤ fuel →
      oracle (k + j) = none →
      ∀ v ∈ (videos.drop (bs * j)).take bs,
        v ∈ enhanceGo bs upd oracle fuel k videos := by
  intro j
  induction j with
  | zero =>
    intro fuel k videos hfuel hnone v hv
    cases videos with
    | nil => simp at hv
    | cons w ws =>
      cases fuel with
      | zero => simp at hfuel
      | succ f =>
        rw [enhanceGo]
        apply List.mem_append_left
        rw [Nat.add_zero] at hnone
        rw [hnone]
        have hbatch : ((w :: ws).drop (bs * 0)).take bs = w :: ws.take (bs - 1) := by
          rcases Nat.exists_eq_add_of_le hbs with ⟨b, rfl⟩
          simp [List.take_cons]
        rw [hbatch] at hv
        exact hv
  | succ j ih =>
    intro fuel k videos hfuel hnone v hv
    cases videos with
    | nil => simp at hv
    | cons w ws =>
      cases fuel with
      | zero => simp at hfuel
      | succ f =>
        rw [enhanceGo]
        apply List.mem_append_right
        have hdrop : (w :: ws).drop (bs * (j + 1)) =
            (ws.drop (bs - 1)).drop (bs * j) := by
          rcases Nat.exists_eq_add_of_le hbs with ⟨b, rfl⟩
          have h1 : (1 + b) * (j + 1) = (1 + b) * j + b + 1 := by
            rw [Nat.mul_succ]; omega
          have h2 : (1 + b) - 1 = b := by omega
          rw [h1, List.drop_succ_cons, h2, List.drop_drop,
            Nat.add_comm ((1 + b) * j) b]
        rw [hdrop] at hv
        refine ih f (k + 1) (ws.drop (bs - 1)) ?_ ?_ v hv
        · have := List.length_drop (bs - 1) ws
          simp only [List.length_cons] at hfuel
          omega
        · rw [← hnone]
          congr 1
          omega

/-- A candidate still missing the sub-stage-A fields can never pass
sub-stage A's retention filter. -/
theorem stageA_missing_fields_dropped (oracle : Nat → Option (List StageAVerdict))
    (videos : List Video) (v : Video) (hv : v.content_type = none) :
    v ∉ stage1_content_type_detection oracle videos := by
  intro hmem
  have := (List.mem_filter.mp hmem).2
  simp only [hv, Bool.and_eq_true, decide_eq_true_eq] at this
  exact absurd this.1 (by simp)

/-- A candidate still missing the sub-stage-B fields can never pass
sub-stage B's retention filter. -/
theorem stageB_missing_fields_dropped (oracle : Nat → Option (List StageBVerdict))
    (videos : List Video) (v : Video) (hv : v.is_feature_film = none) :
    v ∉ stage2_feature_film_analysis oracle videos := by
  intro hmem
  have := (List.mem_filter.mp hmem).2
  simp only [hv, Bool.and_eq_true, decide_eq_true_eq] at this
  exact absurd this.1 (by simp)

/-- A candidate still missing the sub-stage-C fields can never pass
sub-stage C's retention filter. -/
theorem stageC_missing_fields_dropped (oracle : Nat → Option (List StageCVerdict))
    (videos : List Video) (v : Video) (hv : v.is_pre_1965 = none) :
    v ∉ stage3_era_studio_verification oracle videos := by
  intro hmem
  have := (List.mem_filter.mp hmem).2
  simp only [hv, Bool.and_eq_true, decide_eq_true_eq] at this
  exact absurd this.1 (by simp)

/-- **C1 (counterexample).** A transport failure on sub-stage A's only batch
(`oracle ≡ none`) does NOT pass the batch's candidate through to the
sub-stage's output: the candidate, which carries no content-type fields, is
dropped by the trailing retention filter, and the output is empty — not the
unfiltered batch the claim requires. -/
theorem failed_batch_not_passed_through :
    (fun _ : Nat => (none : Option (List StageAVerdict))) 0 = none ∧
    unclassifiedVideo.content_type = none ∧
    stage1_content_type_detection (fun _ => none) [unclassifiedVideo] = [] :=
  ⟨rfl, rfl, by decide⟩

/-- **C1 (amended).** If the classification call for a batch fails at any
sub-stage, that batch's candidates are appended *unmodified* to the
sub-stage's internal enhanced list — but the sub-stage's trailing retention
filter still applies to them, so a failed-batch candidate that does not
already carry passing classification fields (in particular any candidate
whose corresponding verdict field is still absent) is dropped from the
sub-stage's output rather than passed through to the next sub-stage. -/
theorem failed_batch_enhanced_then_filtered :
    (∀ (oracle : Nat → Option (List StageAVerdict)) (videos : List Video) (j : Nat)
        (v : Video), oracle j = none → v ∈ (videos.drop (10 * j)).take 10 →
        v ∈ enhanceBatches 10 updateA oracle videos) ∧
    (∀ (oracle : Nat → Option (List StageAVerdict)) (videos : List Video) (v : Video),
        v.content_type = none → v ∉ stage1_content_type_detection oracle videos) ∧
    (∀ (oracle : Nat → Option (List StageBVerdict)) (videos : List Video) (j : Nat)
        (v : Video), oracle j = none → v ∈ (videos.drop (8 * j)).take 8 →
        v ∈ enhanceBatches 8 updateB oracle videos) ∧
    (∀ (oracle : Nat → Option (List StageBVerdict)) (videos : List Video) (v : Video),
        v.is_feature_film = none → v ∉ stage2_feature_film_analysis oracle videos) ∧
    (∀ (oracle : Nat → Option (List StageCVerdict)) (videos : List Video) (j : Nat)
        (v : Video), oracle j = none → v ∈ (videos.drop (8 * j)).take 8 →
        v ∈ enhanceBatches 8 updateC oracle videos) ∧
    (∀ (oracle : Nat → Option (List StageCVerdict)) (videos : List Video) (v : Video),
        v.is_pre_1965 = none → v ∉ stage3_era_studio_verification oracle videos) := by
  refine ⟨?_, stageA_missing_fields_dropped, ?_, stageB_missing_fields_dropped,
    ?_, stageC_missing_fields_dropped⟩
  · intro oracle videos j v hnone hv
    exact enhanceGo_failed_batch_mem 10 (by omega) updateA oracle j videos.length 0
      videos le_rfl (by simpa using hnone) v hv
  · intro oracle videos j v hnone hv
    exact enhanceGo_failed_batch_mem 8 (by omega) updateB oracle j videos.length 0
      videos le_rfl (by simpa using hnone) v hv
  · intro oracle videos j v hnone hv
    exact enhanceGo_failed_batch_mem 8 (by omega) updateC oracle j videos.length 0
      videos le_rfl (by simpa using hnone) v hv

/-- Closed instance of `failed_batch_enhanced_then_filtered`: the candidate
of a failed sub-stage-A batch is in the enhanced list yet absent from the
sub-stage's output. -/
theorem failed_batch_enhanced_then_filtered_witness :
    unclassifiedVideo ∈ enhanceBatches 10 updateA
      (fun _ => (none : Option (List StageAVerdict))) [unclassifiedVideo] ∧
    unclassifiedVideo ∉ stage1_content_type_detection
      (fun _ => (none : Option (List StageAVerdict))) [unclassifiedVideo] :=
  ⟨failed_batch_enhanced_then_filtered.1 (fun _ => none) [unclassifiedVideo] 0
      unclassifiedVideo rfl (by decide),
   failed_batch_enhanced_then_filtered.2.1 (fun _ => none) [unclassifiedVideo]
      unclassifiedVideo rfl⟩

/-! ### Bounds of the SequenceMatcher model

Loop invariants of `find_longest_match`: the best block always lies inside
the requested window, hence the matched total is bounded by both window
lengths and the ratio lands in [0, 1]. -/

/-- Window invariants of the inner row loop of `find_longest_match`. -/
theorem rowGo_bounds (blo bhi i : Nat) (old : Nat → Nat) (alo ahi : Nat)
    (halo : alo ≤ i) (hi : i < ahi)
    (hold : ∀ c, old c ≤ i - alo) (holdc : ∀ c, old c ≤ c + 1 - blo) :
    ∀ (js : List Nat) (newj : Nat → Nat) (best : Nat × Nat × Nat),
      (∀ c, newj c ≤ i + 1 - alo) → (∀ c, newj c ≤ c + 1 - blo) →
      alo ≤ best.1 → blo ≤ best.2.1 →
      best.1 + best.2.2 ≤ ahi → best.2.1 + best.2.2 ≤ bhi →
      (∀ c, (rowGo blo bhi i old js newj best).1 c ≤ i + 1 - alo) ∧
      (∀ c, (rowGo blo bhi i old js newj best).1 c ≤ c + 1 - blo) ∧
      alo ≤ (rowGo blo bhi i old js newj best).2.1 ∧
      blo ≤ (rowGo blo bhi i old js newj best).2.2.1 ∧
      (rowGo blo bhi i old js newj best).2.1 +
        (rowGo blo bhi i old js newj best).2.2.2 ≤ ahi ∧
      (rowGo blo bhi i old js newj best).2.2.1 +
        (rowGo blo bhi i old js newj best).2.2.2 ≤ bhi := by
  intro js
  induction js with
  | nil =>
    intro newj best h1 h2 h3 h4 h5 h6
    simp only [rowGo]
    exact ⟨h1, h2, h3, h4, h5, h6⟩
  | cons j js ih =>
    intro newj best h1 h2 h3 h4 h5 h6
    simp only [rowGo]
    split
    · exact ih newj best h1 h2 h3 h4 h5 h6
    · rename_i hjlo
      split
      · simp only
        exact ⟨h1, h2, h3, h4, h5, h6⟩
      · rename_i hjhi
        have hblo : blo ≤ j := Nat.le_of_not_lt hjlo
        have hjbhi : j < bhi := Nat.lt_of_not_le hjhi
        have hk1 : (if j = 0 then 0 else old (j - 1)) ≤ i - alo := by
          split
          · omega
          · exact hold (j - 1)
        have hk2 : (if j = 0 then 0 else old (j - 1)) + 1 ≤ j + 1 - blo := by
          split
          · omega
          · have := holdc (j - 1)
            omega
        set k0 := (if j = 0 then 0 else old (j - 1)) with hk0
        apply ih
        · intro c
          by_cases hc : c = j
          · rw [if_pos hc]
            omega
          · rw [if_neg hc]
            exact h1 c
        · intro c
          by_cases hc : c = j
          · rw [if_pos hc]
            subst hc
            exact hk2
          · rw [if_neg hc]
            exact h2 c
        · split
          · dsimp only
            omega
          · exact h3
        · split
          · dsimp only
            omega
          · exact h4
        · split
          · dsimp only
            omega
          · exact h5
        · split
          · dsimp only
            omega
          · exact h6

/-- Window invariants of the row-by-row loop of `find_longest_match`. -/
theorem mainGo_bounds (a b : List Char) (alo blo bhi : Nat) (ahi : Nat) :
    ∀ (m start : Nat) (old : Nat → Nat) (best : Nat × Nat × Nat),
      alo ≤ start →
      (∀ c, old c ≤ start - alo) → (∀ c, old c ≤ c + 1 - blo) →
      alo ≤ best.1 → blo ≤ best.2.1 →
      best.1 + best.2.2 ≤ ahi → best.2.1 + best.2.2 ≤ bhi →
      start + m ≤ ahi →
      alo ≤ (mainGo a b blo bhi (List.range' start m) old best).1 ∧
      blo ≤ (mainGo a b blo bhi (List.range' start m) old best).2.1 ∧
      (mainGo a b blo bhi (List.range' start m) old best).1 +
        (mainGo a b blo bhi (List.range' start m) old best).2.2 ≤ ahi ∧
      (mainGo a b blo bhi (List.range' start m) old best).2.1 +
        (mainGo a b blo bhi (List.range' start m) old best).2.2 ≤ bhi := by
  intro m
  induction m with
  | zero =>
    intro start old best _ _ _ h3 h4 h5 h6 _
    simp only [List.range', mainGo]
    exact ⟨h3, h4, h5, h6⟩
  | succ m ih =>
    intro start old best hstart hold holdc h3 h4 h5 h6 hm
    rw [List.range'_succ]
    simp only [mainGo]
    obtain ⟨g1, g2, g3, g4, g5, g6⟩ :=
      rowGo_bounds blo bhi start old alo ahi hstart (by omega)
        hold holdc
        (b2j b (a.getD start default)) (fun _ => 0) best
        (fun c => Nat.zero_le _) (fun c => Nat.zero_le _) h3 h4 h5 h6
    exact ih (start + 1) _ _ (by omega) g1 g2 g3 g4 g5 g6 (by omega)

/-- The backward extension stays inside the window and never changes the
block's end positions. -/
theorem extendBack_bounds (a b : List Char) (alo blo : Nat) :
    ∀ (besti bestj bestsize : Nat), alo ≤ besti → blo ≤ bestj →
      alo ≤ (extendBack a b alo blo besti bestj bestsize).1 ∧
      blo ≤ (extendBack a b alo blo besti bestj bestsize).2.1 ∧
      (extendBack a b alo blo besti bestj bestsize).1 +
        (extendBack a b alo blo besti bestj bestsize).2.2 = besti + bestsize ∧
      (extendBack a b alo blo besti bestj bestsize).2.1 +
        (extendBack a b alo blo besti bestj bestsize).2.2 = bestj + bestsize := by
  intro besti
  induction besti with
  | zero =>
    intro bestj bestsize h1 h2
    exact ⟨h1, h2, rfl, rfl⟩
  | succ bi ih =>
    intro bestj bestsize h1 h2
    simp only [extendBack]
    split
    · rename_i hcond
      obtain ⟨g1, g2, g3, g4⟩ := ih (bestj - 1) (bestsize + 1) hcond.1 (by omega)
      refine ⟨g1, g2, by omega, ?_⟩
      have hblo : blo < bestj := hcond.2.1
      omega
    · exact ⟨h1, h2, rfl, rfl⟩

/-- The forward extension never grows the block past the window. -/
theorem extendFwd_le (a b : List Char) (ahi bhi besti bestj : Nat) :
    ∀ (fuel bestsize : Nat), besti + bestsize ≤ ahi → bestj + bestsize ≤ bhi →
      besti + extendFwd a b ahi bhi besti bestj fuel bestsize ≤ ahi ∧
      bestj + extendFwd a b ahi bhi besti bestj fuel bestsize ≤ bhi := by
  intro fuel
  induction fuel with
  | zero => intro bestsize h1 h2; exact ⟨h1, h2⟩
  | succ f ih =>
    intro bestsize h1 h2
    simp only [extendFwd]
    split
    · rename_i hcond
      exact ih (bestsize + 1) (by omega) (by omega)
    · exact ⟨h1, h2⟩

/-- The longest match returned for a window lies inside that window. -/
theorem findLongestMatch_bounds (a b : List Char) (alo ahi blo bhi : Nat)
    (h1 : alo ≤ ahi) (h2 : blo ≤ bhi) :
    alo ≤ (findLongestMatch a b alo ahi blo bhi).1 ∧
    blo ≤ (findLongestMatch a b alo ahi blo bhi).2.1 ∧
    (findLongestMatch a b alo ahi blo bhi).1 +
      (findLongestMatch a b alo ahi blo bhi).2.2 ≤ ahi ∧
    (findLongestMatch a b alo ahi blo bhi).2.1 +
      (findLongestMatch a b alo ahi blo bhi).2.2 ≤ bhi := by
  obtain ⟨m1, m2, m3, m4⟩ :=
    mainGo_bounds a b alo blo bhi ahi (ahi - alo) alo (fun _ => 0) (alo, blo, 0)
      le_rfl (fun c => Nat.zero_le _) (fun c => Nat.zero_le _) le_rfl le_rfl
      (by simpa using h1) (by simpa using h2) (by omega)
  unfold findLongestMatch
  dsimp only
  set mg := mainGo a b blo bhi (List.range' alo (ahi - alo)) (fun _ => 0) (alo, blo, 0)
    with hmg
  set eb := extendBack a b alo blo mg.1 mg.2.1 mg.2.2 with hebd
  obtain ⟨e1, e2, e3, e4⟩ := extendBack_bounds a b alo blo mg.1 mg.2.1 mg.2.2 m1 m2
  rw [← hebd] at e1 e2 e3 e4
  obtain ⟨f1, f2⟩ := extendFwd_le a b ahi bhi eb.1 eb.2.1
    (ahi - (eb.1 + eb.2.2)) eb.2.2 (by omega) (by omega)
  exact ⟨e1, e2, f1, f2⟩

/-- The total matched size is bounded by both window lengths. -/
theorem matchedTotal_le (a b : List Char) :
    ∀ (fuel alo ahi blo bhi : Nat), alo ≤ ahi → blo ≤ bhi →
      matchedTotal a b fuel alo ahi blo bhi ≤ ahi - alo ∧
      matchedTotal a b fuel alo ahi blo bhi ≤ bhi - blo := by
  intro fuel
  induction fuel with
  | zero => intro alo ahi blo bhi _ _; exact ⟨Nat.zero_le _, Nat.zero_le _⟩
  | succ f ih =>
    intro alo ahi blo bhi h1 h2
    simp only [matchedTotal]
    split
    · exact ⟨Nat.zero_le _, Nat.zero_le _⟩
    · obtain ⟨b1, b2, b3, b4⟩ := findLongestMatch_bounds a b alo ahi blo bhi h1 h2
      obtain ⟨l1, l2⟩ := ih alo (findLongestMatch a b alo ahi blo bhi).1 blo
        (findLongestMatch a b alo ahi blo bhi).2.1 (by omega) (by omega)
      obtain ⟨r1, r2⟩ := ih
        ((findLongestMatch a b alo ahi blo bhi).1 + (findLongestMatch a b alo ahi blo bhi).2.2)
        ahi
        ((findLongestMatch a b alo ahi blo bhi).2.1 + (findLongestMatch a b alo ahi blo bhi).2.2)
        bhi (by omega) (by omega)
      exact ⟨by omega, by omega⟩

/-! ### Identity: `ratio(a, a) = 1`

When `a` is matched against itself, every `j2len` value is bounded by the
diagonal run length `diagRun`, so the running best block always lies on the
diagonal; the extension loops then stretch the diagonal block to the whole
string. -/

/-- Membership in `b2j`: a match position for `c` is in range and carries
the character `c`. -/
theorem mem_b2j (b : List Char) (c : Char) (j : Nat) (h : j ∈ b2j b c) :
    j < b.length ∧ b.getD j default = c := by
  unfold b2j at h
  split at h
  · simp at h
  · unfold indicesOf at h
    obtain ⟨h1, h2⟩ := List.mem_filter.mp h
    exact ⟨List.mem_range.mp h1, by simpa using h2⟩

/-- The match positions of `b2j` are strictly ascending. -/
theorem b2j_pairwise_lt (b : List Char) (c : Char) :
    (b2j b c).Pairwise (· < ·) := by
  unfold b2j
  split
  · simp
  · exact (List.pairwise_lt_range _).sublist (List.filter_sublist _)

/-- A non-popular character occurs in its own `b2j` bucket. -/
theorem self_mem_b2j (a : List Char) (r : Nat) (hr : r < a.length)
    (hpop : isPopular a (a.getD r default) = false) :
    r ∈ b2j a (a.getD r default) := by
  unfold b2j
  rw [if_neg (by rw [hpop]; simp)]
  unfold indicesOf
  exact List.mem_filter.mpr ⟨List.mem_range.mpr hr, by simp⟩

/-- `diagRun` at a non-popular position extends the previous diagonal run. -/
theorem diagRun_nonpop (a : List Char) (j : Nat)
    (hpop : isPopular a (a.getD j default) = false) :
    diagRun a j = (if j = 0 then 0 else diagRun a (j - 1)) + 1 := by
  cases j with
  | zero => simp only [diagRun]; rw [hpop]; simp
  | succ j' => simp only [diagRun]; rw [hpop]; simp

/-- `diagRun` at a popular position is zero. -/
theorem diagRun_pop (a : List Char) (j : Nat)
    (hpop : isPopular a (a.getD j default) = true) :
    diagRun a j = 0 := by
  cases j with
  | zero => simp only [diagRun]; rw [hpop]; simp
  | succ j' => simp only [diagRun]; rw [hpop]; simp

/-- Inner-loop invariant of the self-match dynamic program: processing any
ascending list of match positions of the row's character keeps the best
block on the diagonal, keeps every `j2len` entry bounded by the diagonal
runs, and records the full diagonal run at the diagonal key. -/
theorem rowGo_id_go (a : List Char) (r : Nat)
    (old : Nat → Nat) (dPrev : Nat)
    (hpop : isPopular a (a.getD r default) = false)
    (hdr : diagRun a r = dPrev + 1)
    (hold1 : ∀ c, old c ≤ dPrev)
    (hold2 : ∀ c, old c ≤ diagRun a c)
    (holdr : (if r = 0 then 0 else old (r - 1)) = dPrev) :
    ∀ (js : List Nat) (newj : Nat → Nat) (best : Nat × Nat × Nat),
      (∀ j ∈ js, j < a.length ∧ a.getD j default = a.getD r default) →
      js.Pairwise (· < ·) →
      (∀ c, newj c ≤ diagRun a r) →
      (∀ c, newj c ≤ diagRun a c) →
      (r ∈ js ∨ newj r = diagRun a r) →
      best.1 = best.2.1 →
      (∀ r' < r, diagRun a r' ≤ best.2.2) →
      (r ∈ js ∨ diagRun a r ≤ best.2.2) →
      (∀ c, (rowGo 0 a.length r old js newj best).1 c ≤ diagRun a r) ∧
      (∀ c, (rowGo 0 a.length r old js newj best).1 c ≤ diagRun a c) ∧
      (rowGo 0 a.length r old js newj best).1 r = diagRun a r ∧
      (rowGo 0 a.length r old js newj best).2.1 =
        (rowGo 0 a.length r old js newj best).2.2.1 ∧
      (∀ r' < r, diagRun a r' ≤ (rowGo 0 a.length r old js newj best).2.2.2) ∧
      diagRun a r ≤ (rowGo 0 a.length r old js newj best).2.2.2 := by
  intro js
  induction js with
  | nil =>
    intro newj best hjs hsort hn1 hn2 hnr hb1 hb2 hbr
    simp only [rowGo]
    rcases hnr with h | h
    · simp at h
    · rcases hbr with h' | h'
      · simp at h'
      · exact ⟨hn1, hn2, h, hb1, hb2, h'⟩
  | cons j js ih =>
    intro newj best hjs hsort hn1 hn2 hnr hb1 hb2 hbr
    obtain ⟨hjlen, hjchar⟩ := hjs j (List.mem_cons_self _ _)
    obtain ⟨hjtail, hsort'⟩ := List.pairwise_cons.mp hsort
    have hjs' : ∀ x ∈ js, x < a.length ∧ a.getD x default = a.getD r default :=
      fun x hx => hjs x (List.mem_cons_of_mem _ hx)
    simp only [rowGo]
    rw [if_neg (Nat.not_lt_zero j), if_neg (by omega : ¬ a.length ≤ j)]
    have hpopj : isPopular a (a.getD j default) = false := by rw [hjchar]; exact hpop
    have hDj : diagRun a j = (if j = 0 then 0 else diagRun a (j - 1)) + 1 :=
      diagRun_nonpop a j hpopj
    have hk_le_Dj : (if j = 0 then 0 else old (j - 1)) + 1 ≤ diagRun a j := by
      rw [hDj]
      by_cases hj0 : j = 0
      · simp [hj0]
      · simp only [if_neg hj0]
        have := hold2 (j - 1)
        omega
    have hk_le_Dr : (if j = 0 then 0 else old (j - 1)) + 1 ≤ diagRun a r := by
      rw [hdr]
      by_cases hj0 : j = 0
      · simp [hj0]
      · simp only [if_neg hj0]
        have := hold1 (j - 1)
        omega
    set k0 := (if j = 0 then 0 else old (j - 1)) with hk0
    rcases Nat.lt_trichotomy j r with hjr | hjr | hjr
    · -- j < r: the candidate run is dominated by an earlier diagonal run
      have hnoup : ¬ best.2.2 < k0 + 1 := by
        have := hb2 j hjr
        omega
      rw [if_neg hnoup]
      apply ih _ best hjs' hsort'
      · intro c
        by_cases hc : c = j
        · rw [if_pos hc]; exact hk_le_Dr
        · rw [if_neg hc]; exact hn1 c
      · intro c
        by_cases hc : c = j
        · rw [if_pos hc, hc]; exact hk_le_Dj
        · rw [if_neg hc]; exact hn2 c
      · rcases hnr with h | h
        · rcases List.mem_cons.mp h with h' | h'
          · omega
          · exact Or.inl h'
        · refine Or.inr ?_
          rw [if_neg (by omega : ¬ r = j)]
          exact h
      · exact hb1
      · exact hb2
      · rcases hbr with h | h
        · rcases List.mem_cons.mp h with h' | h'
          · omega
          · exact Or.inl h'
        · exact Or.inr h
    · -- j = r: the diagonal cell itself
      have hkval : k0 + 1 = diagRun a r := by rw [hk0, hjr, holdr, hdr]
      split
      · rename_i hup
        apply ih _ _ hjs' hsort'
        · intro c
          by_cases hc : c = j
          · rw [if_pos hc]; exact hk_le_Dr
          · rw [if_neg hc]; exact hn1 c
        · intro c
          by_cases hc : c = j
          · rw [if_pos hc, hc]; exact hk_le_Dj
          · rw [if_neg hc]; exact hn2 c
        · exact Or.inr (by rw [if_pos hjr.symm]; exact hkval)
        · dsimp only
          rw [hjr]
        · intro r' hr'
          have := hb2 r' hr'
          dsimp only
          omega
        · dsimp only
          omega
      · rename_i hnoup
        apply ih _ best hjs' hsort'
        · intro c
          by_cases hc : c = j
          · rw [if_pos hc]; exact hk_le_Dr
          · rw [if_neg hc]; exact hn1 c
        · intro c
          by_cases hc : c = j
          · rw [if_pos hc, hc]; exact hk_le_Dj
          · rw [if_neg hc]; exact hn2 c
        · exact Or.inr (by rw [if_pos hjr.symm]; exact hkval)
        · exact hb1
        · exact hb2
        · refine Or.inr ?_
          omega
    · -- j > r: the diagonal key was already processed (ascending order)
      have hnotin : r ∉ j :: js := by
        intro hmem
        rcases List.mem_cons.mp hmem with h | h
        · omega
        · have := hjtail r h
          omega
      have hbrv : diagRun a r ≤ best.2.2 := by
        rcases hbr with h | h
        · exact absurd h hnotin
        · exact h
      have hnrv : newj r = diagRun a r := by
        rcases hnr with h | h
        · exact absurd h hnotin
        · exact h
      have hnoup : ¬ best.2.2 < k0 + 1 := by omega
      rw [if_neg hnoup]
      apply ih _ best hjs' hsort'
      · intro c
        by_cases hc : c = j
        · rw [if_pos hc]; exact hk_le_Dr
        · rw [if_neg hc]; exact hn1 c
      · intro c
        by_cases hc : c = j
        · rw [if_pos hc, hc]; exact hk_le_Dj
        · rw [if_neg hc]; exact hn2 c
      · refine Or.inr ?_
        rw [if_neg (by omega : ¬ r = j)]
        exact hnrv
      · exact hb1
      · exact hb2
      · exact Or.inr hbrv

/-- Row-level invariant of the self-match: one full row keeps the best
block diagonal, bounds the new `j2len` row by the diagonal runs, records
`diagRun a r` at key `r`, and pushes the best size past `diagRun a r`. -/
theorem rowGo_id_row (a : List Char) (r : Nat) (hr : r < a.length)
    (old : Nat → Nat)
    (hold1 : ∀ c, old c ≤ (if r = 0 then 0 else diagRun a (r - 1)))
    (hold2 : ∀ c, old c ≤ diagRun a c)
    (holdr : (if r = 0 then 0 else old (r - 1)) =
      (if r = 0 then 0 else diagRun a (r - 1)))
    (best : Nat × Nat × Nat) (hb1 : best.1 = best.2.1)
    (hb2 : ∀ r' < r, diagRun a r' ≤ best.2.2) :
    (∀ c, (rowGo 0 a.length r old (b2j a (a.getD r default)) (fun _ => 0) best).1 c
        ≤ diagRun a r) ∧
    (∀ c, (rowGo 0 a.length r old (b2j a (a.getD r default)) (fun _ => 0) best).1 c
        ≤ diagRun a c) ∧
    (rowGo 0 a.length r old (b2j a (a.getD r default)) (fun _ => 0) best).1 r
      = diagRun a r ∧
    (rowGo 0 a.length r old (b2j a (a.getD r default)) (fun _ => 0) best).2.1 =
      (rowGo 0 a.length r old (b2j a (a.getD r default)) (fun _ => 0) best).2.2.1 ∧
    (∀ r' < r + 1, diagRun a r'
      ≤ (rowGo 0 a.length r old (b2j a (a.getD r default)) (fun _ => 0) best).2.2.2) := by
  by_cases hpop : isPopular a (a.getD r default) = true
  · have hempty : b2j a (a.getD r default) = [] := by
      unfold b2j
      rw [if_pos hpop]
    have hDr : diagRun a r = 0 := diagRun_pop a r hpop
    rw [hempty]
    simp only [rowGo]
    refine ⟨fun c => Nat.zero_le _, fun c => Nat.zero_le _, by rw [hDr], hb1, ?_⟩
    intro r' hr'
    rcases Nat.lt_or_ge r' r with h | h
    · exact hb2 r' h
    · have : r' = r := by omega
      rw [this, hDr]
      exact Nat.zero_le _
  · rw [Bool.not_eq_true] at hpop
    obtain ⟨g1, g2, g3, g4, g5, g6⟩ :=
      rowGo_id_go a r old (if r = 0 then 0 else diagRun a (r - 1)) hpop
        (diagRun_nonpop a r hpop) hold1 hold2 holdr
        (b2j a (a.getD r default)) (fun _ => 0) best
        (fun j hj => mem_b2j a (a.getD r default) j hj)
        (b2j_pairwise_lt a (a.getD r default))
        (fun c => Nat.zero_le _) (fun c => Nat.zero_le _)
        (Or.inl (self_mem_b2j a r hr hpop)) hb1 hb2
        (Or.inl (self_mem_b2j a r hr hpop))
    refine ⟨g1, g2, g3, g4, ?_⟩
    intro r' hr'
    rcases Nat.lt_or_ge r' r with h | h
    · exact g5 r' h
    · have : r' = r := by omega
      rw [this]
      exact g6

/-- The self-match main loop returns a diagonal best block. -/
theorem mainGo_id (a : List Char) :
    ∀ (m r : Nat) (old : Nat → Nat) (best : Nat × Nat × Nat),
      r + m = a.length →
      (∀ c, old c ≤ (if r = 0 then 0 else diagRun a (r - 1))) →
      (∀ c, old c ≤ diagRun a c) →
      ((if r = 0 then 0 else old (r - 1)) = (if r = 0 then 0 else diagRun a (r - 1))) →
      best.1 = best.2.1 →
      (∀ r' < r, diagRun a r' ≤ best.2.2) →
      (mainGo a a 0 a.length (List.range' r m) old best).1 =
        (mainGo a a 0 a.length (List.range' r m) old best).2.1 := by
  intro m
  induction m with
  | zero =>
    intro r old best _ _ _ _ hb1 _
    simpa [List.range', mainGo] using hb1
  | succ m ih =>
    intro r old best hsum hold1 hold2 holdr hb1 hb2
    rw [List.range'_succ]
    simp only [mainGo]
    have hr : r < a.length := by omega
    obtain ⟨g1, g2, g3, g4, g5⟩ :=
      rowGo_id_row a r hr old hold1 hold2 holdr best hb1 hb2
    refine ih (r + 1) _ _ (by omega) ?_ g2 ?_ g4 g5
    · intro c
      simpa using g1 c
    · simpa using g3

/-- The backward extension of a diagonal block over the full self-match
window reaches position 0. -/
theorem extendBack_diag (a : List Char) :
    ∀ (d s : Nat), extendBack a a 0 0 d d s = (0, 0, s + d) := by
  intro d
  induction d with
  | zero => intro s; rfl
  | succ d ih =>
    intro s
    simp only [extendBack]
    split
    · simp only [Nat.add_sub_cancel]
      rw [ih (s + 1)]
      have hss : s + 1 + d = s + (d + 1) := by omega
      rw [hss]
    · rename_i hcond
      exact absurd ⟨Nat.zero_le _, Nat.succ_pos _, by simp⟩ hcond

/-- The forward extension of a diagonal block over the full self-match
window reaches the end of the string. -/
theorem extendFwd_diag (a : List Char) (n : Nat) (hn : n = a.length) :
    ∀ (fuel s : Nat), fuel = n - s → s ≤ n →
      extendFwd a a n n 0 0 fuel s = n := by
  intro fuel
  induction fuel with
  | zero => intro s h1 h2; simp only [extendFwd]; omega
  | succ f ih =>
    intro s h1 h2
    simp only [extendFwd]
    split
    · exact ih (s + 1) (by omega) (by omega)
    · rename_i hcond
      exact absurd ⟨by omega, by omega, trivial⟩ hcond

/-- A degenerate window matches nothing. -/
theorem matchedTotal_empty (a b : List Char) :
    ∀ (fuel x y : Nat), matchedTotal a b fuel x x y y = 0 := by
  intro fuel x y
  cases fuel with
  | zero => rfl
  | succ f =>
    simp only [matchedTotal]
    have hflm := findLongestMatch_bounds a b x x y y le_rfl le_rfl
    rw [if_pos (by omega)]

/-- On the self-match, `find_longest_match` returns the whole string. -/
theorem findLongestMatch_id (a : List Char) :
    findLongestMatch a a 0 a.length 0 a.length = (0, 0, a.length) := by
  have hdiag := mainGo_id a a.length 0 (fun _ => 0) (0, 0, 0) (by omega)
    (fun c => by simp) (fun c => Nat.zero_le _) (by simp) rfl
    (fun r' hr' => absurd hr' (Nat.not_lt_zero r'))
  obtain ⟨m1, m2, m3, m4⟩ :=
    mainGo_bounds a a 0 0 a.length a.length a.length 0 (fun _ => 0) (0, 0, 0)
      le_rfl (fun c => Nat.zero_le _) (fun c => Nat.zero_le _) le_rfl le_rfl
      (by simp) (by simp) (by omega)
  unfold findLongestMatch
  dsimp only
  simp only [Nat.sub_zero]
  set mg := mainGo a a 0 a.length (List.range' 0 a.length) (fun _ => 0)
    (0, 0, 0) with hmg
  have heb : extendBack a a 0 0 mg.1 mg.2.1 mg.2.2 = (0, 0, mg.2.2 + mg.1) := by
    have hd : mg.2.1 = mg.1 := by
      rw [hmg]
      exact (hdiag).symm
    rw [hd]
    exact extendBack_diag a mg.1 mg.2.2
  rw [heb]
  have hsd : mg.2.2 + mg.1 ≤ a.length := by omega
  have hfw : extendFwd a a a.length a.length 0 0
      (a.length - (0 + (mg.2.2 + mg.1))) (mg.2.2 + mg.1) = a.length := by
    exact extendFwd_diag a a.length rfl _ _ (by omega) hsd
  rw [hfw]

/-- On the self-match the matched total is the whole length. -/
theorem matchedTotal_id (a : List Char) (hne : a.length ≠ 0) :
    matchedTotal a a (a.length + 1) 0 a.length 0 a.length = a.length := by
  simp only [matchedTotal, findLongestMatch_id]
  rw [if_neg (by simpa using hne)]
  simp [matchedTotal_empty]

/-- The similarity ratio of a string with itself is 1. -/
theorem seqRatio_self (a : List Char) : seqRatio a a = 1 := by
  unfold seqRatio
  split
  · rfl
  · rename_i hne
    have hlen : a.length ≠ 0 := by omega
    rw [matchedTotal_id a hlen]
    have hq : ((a.length : ℚ) + a.length) ≠ 0 := by
      have h0 : (0:ℚ) < (a.length : ℚ) + a.length := by
        have := Nat.pos_of_ne_zero hlen
        exact_mod_cast by omega
      exact ne_of_gt h0
    field_simp
    ring

/-- The similarity ratio is nonnegative. -/
theorem seqRatio_nonneg (a b : List Char) : 0 ≤ seqRatio a b := by
  unfold seqRatio
  split
  · norm_num
  · apply div_nonneg
    · positivity
    · positivity

/-- The similarity ratio is at most 1. -/
theorem seqRatio_le_one (a b : List Char) : seqRatio a b ≤ 1 := by
  unfold seqRatio
  split
  · norm_num
  · rename_i hne
    obtain ⟨hA, hB⟩ := matchedTotal_le a b (a.length + 1) 0 a.length 0 b.length
      (Nat.zero_le _) (Nat.zero_le _)
    have hpos : (0:ℚ) < (a.length : ℚ) + b.length := by
      have h0 : 0 < a.length + b.length := Nat.pos_of_ne_zero hne
      exact_mod_cast h0
    rw [div_le_one hpos]
    have : 2 * matchedTotal a b (a.length + 1) 0 a.length 0 b.length ≤
        a.length + b.length := by omega
    exact_mod_cast this

/-- **C9 (amended).** The title-similarity function is a normalized
similarity metric in the weaker sense that survives the code: for all title
strings it lies in [0, 1] and equals 1.0 on identical titles (after
case-folding, stripping and article removal) — but, contrary to the claim,
it is NOT symmetric in general (see the counterexample theorem). -/
theorem title_similarity_range_and_identity :
    (∀ t1 t2 : String, 0 ≤ calculate_title_similarity t1 t2 ∧
      calculate_title_similarity t1 t2 ≤ 1) ∧
    (∀ t : String, calculate_title_similarity t t = 1) :=
  ⟨fun t1 t2 => ⟨seqRatio_nonneg _ _, seqRatio_le_one _ _⟩,
   fun t => seqRatio_self _⟩

unseal Rat.add Rat.mul Rat.inv Rat.sub in
/-- **C9 (counterexample).** `calculate_title_similarity` is not symmetric:
on the titles "byrd" and "brady" it returns 4/9 in one order and 2/3 in the
other (the underlying `SequenceMatcher.ratio` depends on the argument
order). -/
theorem title_similarity_not_symmetric :
    calculate_title_similarity "byrd" "brady" = 4/9 ∧
    calculate_title_similarity "brady" "byrd" = 2/3 ∧
    calculate_title_similarity "byrd" "brady" ≠
      calculate_title_similarity "brady" "byrd" := by
  refine ⟨by decide, by decide, by decide⟩

end VimeoScraper
